import Mathlib

/-! Verification of the plaintext text-input converter
(`plugin/plaintext/text_in.go`) of the geoip repository.

Go strings are modelled as lists of characters (`Str`), with the ASCII
string operations of Go's `strings` package defined below.  Side effects
(directory walk, file reads, HTTP fetches) are modelled by a `World`
record supplying their results.  The `lib` package collaborators
(`Entry`, `Container`) are outside the available source tree and are
modelled from the spec, with CIDR parse validity abstracted as a
predicate parameter `valid`. -/

/-- Characters of a Go string, as a list. -/
abbrev Str := List Char

/-- Convert a Lean string literal to the character-list model. -/
def str (s : String) : Str := s.toList

/-- Whitespace recognised by Go's `unicode.IsSpace` (Latin-1 range). -/
def isSpaceChar (c : Char) : Bool :=
  c = ' ' || c = '\t' || c = '\n' || c = '\x0b' || c = '\x0c' || c = '\r' ||
  c = '\x85' || c = '\xa0'

/-- Go `strings.TrimSpace`: drop leading and trailing whitespace. -/
def trimSpace (l : Str) : Str :=
  ((l.dropWhile isSpaceChar).reverse.dropWhile isSpaceChar).reverse

/-- Go `strings.ToLower` on one character (ASCII range, as used here). -/
def lowerChar (c : Char) : Char := c.toLower

/-- Go `strings.ToUpper` on one character (ASCII range, as used here). -/
def upperChar (c : Char) : Char := c.toUpper

/-- Go `strings.ToLower`. -/
def lowerStr (l : Str) : Str := l.map lowerChar

/-- Go `strings.ToUpper`. -/
def upperStr (l : Str) : Str := l.map upperChar

/-- Go `strings.HasPrefix`. -/
def hasPfx (p l : Str) : Bool := p.isPrefixOf l

/-- Go `strings.TrimPrefix`: drop `p` from the front of `l` if present. -/
def trimPfx (p l : Str) : Str :=
  if p.isPrefixOf l then l.drop p.length else l

/-- Go `strings.TrimSuffix`: drop `s` from the end of `l` if present. -/
def trimSfx (s l : Str) : Str :=
  if s.isSuffixOf l then l.take (l.length - s.length) else l

/-- Index of the first occurrence of `sep` in `l` (Go `strings.Index`). -/
def findOcc (sep : Str) : Str → Option Nat
  | [] => if sep.isPrefixOf [] then some 0 else none
  | c :: rest =>
    if sep.isPrefixOf (c :: rest) then some 0
    else (findOcc sep rest).map (· + 1)

/-- The part of `l` before the first occurrence of `sep`
(the first component of Go `strings.Cut`). -/
def cutBefore (l sep : Str) : Str :=
  match findOcc sep l with
  | some i => l.take i
  | none => l

/-- Position of the first occurrence of `sep` in `l`, or `l.length` when
`sep` does not occur. -/
def occPos (sep l : Str) : Nat := (findOcc sep l).getD l.length

/-- Index of the last occurrence of character `c` (Go `strings.LastIndex`
on a one-character separator). -/
def lastIdxOf (c : Char) (l : Str) : Option Nat :=
  match l.reverse.findIdx? (· = c) with
  | some j => some (l.length - 1 - j)
  | none => none

/-- Go `filepath.Base` for slash-separated paths. -/
def baseName (path : Str) : Str :=
  if path = [] then str "."
  else
    let trimmed := (path.reverse.dropWhile (· = '/')).reverse
    if trimmed = [] then str "/"
    else
      match lastIdxOf '/' trimmed with
      | some i => trimmed.drop (i + 1)
      | none => trimmed

/-- The filename pattern `[a-zA-Z0-9_.-]+` checked by `walkLocalFile`. -/
def fileNameOk (l : Str) : Bool :=
  !l.isEmpty && l.all (fun c => c.isAlphanum || c = '_' || c = '.' || c = '-')

/-- Extension stripping of `walkLocalFile` (text_in.go lines 206-210):
truncate at the last dot when that dot is not the leading character. -/
def stripExt (l : Str) : Str :=
  match lastIdxOf '.' l with
  | some i => if 0 < i then l.take i else l
  | none => l

/-- Converter action (`lib.Action` is a string; `add` and `remove` are the
recognised values, every other string is covered by `other`). -/
inductive LibAction where
  | add
  | remove
  | other (s : Str)
deriving DecidableEq

/-- The configured `onlyIPType` (`lib.IPType`; `unset` models the empty
string value). -/
inductive IPType where
  | unset
  | ipv4
  | ipv6
deriving DecidableEq

/-- Family filter handed to the container operations
(`lib.IgnoreIPOption`; `noIgnore` models the nil option). -/
inductive IgnoreIPOption where
  | noIgnore
  | ignoreIPv4
  | ignoreIPv6
deriving DecidableEq

/-- Removal mode of `Container.Remove`.  Modelled from the spec (§4.3):
exact removal and prefix-covering removal; `caseRemovePfx` models
`lib.CaseRemovePrefix`, the prefix-covering mode. -/
inductive RemoveCase where
  | caseRemoveExact
  | caseRemovePfx
deriving DecidableEq

/-- Errors surfaced by the converter, with messages abstracted to tags. -/
inductive Err where
  | missingInputDirOrName
  | missingUriOrIPOrCIDR
  | inputDirExclusive
  | missingArgument
  | badFilename (name : Str)
  | duplicatedList (name : Str)
  | httpStatus (url : Str) (code : Nat)
  | netErr
  | openErr
  | parseErr (s : Str)
  | noEntryGenerated
  | unknownAction
  | containerErr
deriving DecidableEq

/-- Modelled from the spec (§3, §4.2): `lib.Entry` owns a region code and
its prefixes; the canonical merge is not observable from the available
source, so the accepted texts are recorded in order. -/
structure Entry where
  name : Str
  prefixes : List Str
deriving DecidableEq

/-- Modelled from the spec: `lib.NewEntry` creates an empty named entry. -/
def newEntry (n : Str) : Entry := { name := n, prefixes := [] }

/-- Modelled from the spec (§4.2): `lib.Entry.AddPrefix` parses the text
as a CIDR or bare IP and merges it in; parse validity is abstracted as
the predicate `valid`. -/
def Entry.addPfx (valid : Str → Bool) (e : Entry) (s : Str) : Except Err Entry :=
  if valid s then .ok { e with prefixes := e.prefixes ++ [s] }
  else .error (.parseErr s)

/-- The `entries` accumulator of `Input` (a Go `map[string]*lib.Entry`),
modelled as an association list in insertion order. -/
abbrev Entries := List (Str × Entry)

/-- Go map read `entries[k]`. -/
def lookupEntry (es : Entries) (k : Str) : Option Entry :=
  match es with
  | [] => none
  | p :: rest => if p.1 = k then some p.2 else lookupEntry rest k

/-- Go map update `entries[k] = v`: replace an existing binding, else
append a new one. -/
def insertEntry (es : Entries) (k : Str) (v : Entry) : Entries :=
  if (lookupEntry es k).isSome then
    es.map (fun p => if p.1 = k then (k, v) else p)
  else es ++ [(k, v)]

/-- Modelled from the spec (§4.3): the `lib.Container` operations used by
`Input`, kept abstract over the container representation. -/
structure ContainerOps (C : Type) where
  add : C → Entry → IgnoreIPOption → Except Err C
  remove : C → Entry → RemoveCase → IgnoreIPOption → Except Err C

/-- Results of the side effects of one `Input` invocation: the regular
files met by `filepath.Walk` of the configured `inputDir` (in walk
order), the lines delivered by `os.Open` plus scanner per path, and the
status code and body lines delivered by `http.Get` per URL. -/
structure World where
  dirFiles : List Str
  readFile : Str → Except Err (List Str)
  httpGet : Str → Except Err (Nat × List Str)

/-- The decoded JSON configuration seen by `newTextIn` (its `tmp`
struct). -/
structure TextConfig where
  name : Str
  uri : Str
  ipOrCIDR : List Str
  inputDir : Str
  want : List Str
  onlyIPType : IPType
  removePrefixesInLine : List Str
  removeSuffixesInLine : List Str
deriving DecidableEq

/-- The `textIn` converter value (the constant `Type` and `Description`
fields are omitted). -/
structure TextIn where
  action : LibAction
  name : Str
  uri : Str
  ipOrCIDR : List Str
  inputDir : Str
  want : List Str
  onlyIPType : IPType
  removePrefixesInLine : List Str
  removeSuffixesInLine : List Str
deriving DecidableEq

/-- The want set built by `newTextIn` (lines 61-67): trim, upper-case,
drop empties; the Go `map[string]bool` is modelled by list membership. -/
def mkWant (want : List Str) : List Str :=
  (want.map (fun w => upperStr (trimSpace w))).filter (fun w => w ≠ [])

/-- The converter value returned by a successful `newTextIn`
(lines 69-82). -/
def mkTextIn (action : LibAction) (cfg : TextConfig) : TextIn :=
  { action := action
    name := cfg.name
    uri := cfg.uri
    ipOrCIDR := cfg.ipOrCIDR
    inputDir := cfg.inputDir
    want := mkWant cfg.want
    onlyIPType := cfg.onlyIPType
    removePrefixesInLine := cfg.removePrefixesInLine
    removeSuffixesInLine := cfg.removeSuffixesInLine }

/-- `newTextIn` (lines 31-83): construction-time validation of the
decoded configuration, then the converter value. -/
def newTextIn (action : LibAction) (cfg : TextConfig) : Except Err TextIn :=
  if cfg.inputDir = [] then
    if cfg.name = [] then .error .missingInputDirOrName
    else if cfg.uri = [] ∧ cfg.ipOrCIDR = [] then .error .missingUriOrIPOrCIDR
    else .ok (mkTextIn action cfg)
  else if cfg.name ≠ [] ∨ cfg.uri ≠ [] ∨ cfg.ipOrCIDR ≠ [] then
    .error .inputDirExclusive
  else .ok (mkTextIn action cfg)

/-- The three sequential comment cuts of `scanFile` (lines 269-271). -/
def stripComment (line : Str) : Str :=
  cutBefore (cutBefore (cutBefore line (str "#")) (str "//")) (str "/*")

/-- Per-line processing of `scanFile` (lines 267-287): comment cuts,
trim, lowercase, configured prefix then suffix removal each with
re-trimming; `none` means the line is skipped, `some s` is handed to
`AddPrefix`. -/
def procLine (t : TextIn) (line : Str) : Option Str :=
  let l := trimSpace (stripComment line)
  if l = [] then none
  else
    let l := lowerStr l
    let l := t.removePrefixesInLine.foldl
      (fun l p => trimSpace (trimPfx (lowerStr (trimSpace p)) l)) l
    let l := t.removeSuffixesInLine.foldl
      (fun l s => trimSpace (trimSfx (lowerStr (trimSpace s)) l)) l
    let l := trimSpace l
    if l = [] then none else some l

/-- `scanFile` (lines 264-298) over the lines delivered by the scanner. -/
def scanFile (valid : Str → Bool) (t : TextIn) (lines : List Str)
    (e : Entry) : Except Err Entry :=
  lines.foldlM (fun e line =>
    match procLine t line with
    | none => .ok e
    | some s => e.addPfx valid s) e

/-- Entry-name resolution of `walkLocalFile` (lines 194-213): the
explicit name if non-blank, else the filename, pattern-checked and
extension-stripped; upper-cased in both cases. -/
def entryNameOf (path name : Str) : Except Err Str :=
  let name := trimSpace name
  if name ≠ [] then .ok (upperStr name)
  else
    let en := baseName path
    if ¬ fileNameOk en then .error (.badFilename en)
    else .ok (upperStr (stripExt en))

/-- `walkLocalFile` (lines 193-235). -/
def walkLocalFile (valid : Str → Bool) (w : World) (t : TextIn)
    (path name : Str) (entries : Entries) : Except Err Entries :=
  match entryNameOf path name with
  | .error e => .error e
  | .ok entryName =>
    if t.want ≠ [] ∧ t.want.contains entryName = false then .ok entries
    else if (lookupEntry entries entryName).isSome then
      .error (.duplicatedList entryName)
    else
      match w.readFile path with
      | .error e => .error e
      | .ok ls =>
        match scanFile valid t ls (newEntry entryName) with
        | .error e => .error e
        | .ok entry => .ok (insertEntry entries entryName entry)

/-- `walkRemoteFile` (lines 237-262). -/
def walkRemoteFile (valid : Str → Bool) (w : World) (t : TextIn)
    (url name : Str) (entries : Entries) : Except Err Entries :=
  match w.httpGet url with
  | .error e => .error e
  | .ok (status, body) =>
    if status ≠ 200 then .error (.httpStatus url status)
    else
      let name := upperStr name
      if t.want ≠ [] ∧ t.want.contains name = false then .ok entries
      else
        match scanFile valid t body (newEntry name) with
        | .error e => .error e
        | .ok entry => .ok (insertEntry entries name entry)

/-- `appendIPOrCIDR` (lines 300-317). -/
def appendIPOrCIDR (valid : Str → Bool) (ipOrCIDR : List Str) (name : Str)
    (entries : Entries) : Except Err Entries :=
  let name := upperStr name
  let entry := (lookupEntry entries name).getD (newEntry name)
  match ipOrCIDR.foldlM (fun e c => e.addPfx valid (trimSpace c)) entry with
  | .error e => .error e
  | .ok entry => .ok (insertEntry entries name entry)

/-- `walkDir` (lines 174-191): `walkLocalFile` with an empty name over
every regular file met by the walk. -/
def walkDir (valid : Str → Bool) (w : World) (t : TextIn)
    (entries : Entries) : Except Err Entries :=
  w.dirFiles.foldlM (fun es p => walkLocalFile valid w t p [] es) entries

/-- The source-mode switch of `Input` (lines 116-142), including the
fallthrough from the `name`+`uri` case into `appendIPOrCIDR`. -/
def inputGen (valid : Str → Bool) (w : World) (t : TextIn) :
    Except Err Entries :=
  if t.inputDir ≠ [] then walkDir valid w t []
  else if t.name ≠ [] ∧ t.uri ≠ [] then
    match
      (if hasPfx (str "http://") (lowerStr t.uri) ||
          hasPfx (str "https://") (lowerStr t.uri)
       then walkRemoteFile valid w t t.uri t.name []
       else walkLocalFile valid w t t.uri t.name []) with
    | .error e => .error e
    | .ok es => appendIPOrCIDR valid t.ipOrCIDR t.name es
  else if t.name ≠ [] ∧ t.ipOrCIDR ≠ [] then
    appendIPOrCIDR valid t.ipOrCIDR t.name []
  else .error .missingArgument

/-- The ignore option computed from `onlyIPType` (lines 144-150). -/
def ignoreOf (ipt : IPType) : IgnoreIPOption :=
  match ipt with
  | .ipv4 => .ignoreIPv6
  | .ipv6 => .ignoreIPv4
  | .unset => .noIgnore

/-- `Input` (lines 112-172): generate entries, check non-emptiness, then
apply each entry to the container under the declared action. -/
def textInput {C : Type} (valid : Str → Bool) (ops : ContainerOps C)
    (w : World) (t : TextIn) (container : C) : Except Err C :=
  match inputGen valid w t with
  | .error e => .error e
  | .ok entries =>
    let ig := ignoreOf t.onlyIPType
    if entries.isEmpty then .error .noEntryGenerated
    else
      entries.foldlM (fun c p =>
        match t.action with
        | .add => ops.add c p.2 ig
        | .remove => ops.remove c p.2 .caseRemovePfx ig
        | .other _ => .error .unknownAction) container

/-- Spec-side single comment cut (spec §4.4 step 1): keep the text before
the earliest occurrence of any of the three markers. -/
def earliestCutSpec (ln : Str) : Str :=
  ln.take (min (occPos (str "#") ln)
    (min (occPos (str "//") ln) (occPos (str "/*") ln)))

/-- Spec-side case-insensitive removal of one configured line-prefix
value (spec §4.4 step 3): the value, trimmed, is compared
case-insensitively against the front of the line. -/
def stripPfxCI (p l : Str) : Str :=
  if (lowerStr (trimSpace p)).isPrefixOf (lowerStr l) then
    l.drop (trimSpace p).length
  else l

/-- Spec-side case-insensitive removal of one configured line-suffix
value (spec §4.4 step 3). -/
def stripSfxCI (s l : Str) : Str :=
  if (lowerStr (trimSpace s)).isSuffixOf (lowerStr l) then
    l.take (l.length - (trimSpace s).length)
  else l

/-- Spec-side per-line normalization (spec §4.4 steps 1-3, claim C4):
single earliest comment cut, trim, skip empties, lowercase, ordered
case-insensitive prefix-then-suffix removal with re-trimming, final trim
and skip. -/
def lineNormSpec (t : TextIn) (ln : Str) : Option Str :=
  let l := trimSpace (earliestCutSpec ln)
  if l = [] then none
  else
    let l := lowerStr l
    let l := t.removePrefixesInLine.foldl (fun l p => trimSpace (stripPfxCI p l)) l
    let l := t.removeSuffixesInLine.foldl (fun l s => trimSpace (stripSfxCI s l)) l
    let l := trimSpace l
    if l = [] then none else some l

/-- Spec-side characterisation of the configurations rejected by
`newTextIn` (claim C2). -/
def configInvalid (cfg : TextConfig) : Prop :=
  (cfg.inputDir = [] ∧ cfg.name = []) ∨
  (cfg.inputDir = [] ∧ cfg.name ≠ [] ∧ cfg.uri = [] ∧ cfg.ipOrCIDR = []) ∨
  (cfg.inputDir ≠ [] ∧ (cfg.name ≠ [] ∨ cfg.uri ≠ [] ∨ cfg.ipOrCIDR ≠ []))

instance (cfg : TextConfig) : Decidable (configInvalid cfg) := by
  unfold configInvalid
  infer_instance

/-- Parse predicate accepting every prefix text. -/
def validTrue : Str → Bool := fun _ => true

/-- Parse predicate rejecting every prefix text. -/
def validNone : Str → Bool := fun _ => false

/-- Recording container: collects the code and ignore option of every
applied entry. -/
def recOps : ContainerOps (List (Str × IgnoreIPOption)) :=
  { add := fun c e ig => .ok (c ++ [(e.name, ig)])
    remove := fun c e _ ig => .ok (c ++ [(e.name, ig)]) }

/-- World with no walked files and failing reads and fetches. -/
def emptyWorld : World :=
  { dirFiles := [], readFile := fun _ => .error .openErr,
    httpGet := fun _ => .error .netErr }

/-- Template converter value for the concrete checks. -/
def baseT : TextIn :=
  { action := .add, name := [], uri := [], ipOrCIDR := [], inputDir := [],
    want := [], onlyIPType := .unset, removePrefixesInLine := [],
    removeSuffixesInLine := [] }

/-- Claim C1 scenario: a literal-list converter whose name is not in the
non-empty want list. -/
def t1c : TextIn :=
  { baseT with name := str "a", ipOrCIDR := [str "x"], want := [str "B"] }

/-- Want-filtered converter for the C1 skip checks. -/
def tW : TextIn := { baseT with want := [str "B"] }

/-- World answering every fetch with status 200 and an empty body. -/
def w200 : World := { emptyWorld with httpGet := fun _ => .ok (200, []) }

/-- A valid single-source configuration (claim C2). -/
def cfgGood : TextConfig :=
  { name := str "a", uri := str "u", ipOrCIDR := [], inputDir := [],
    want := [], onlyIPType := .unset, removePrefixesInLine := [],
    removeSuffixesInLine := [] }

/-- Claim C4 scenario: a local-file source whose single line fails the
parse. -/
def t4 : TextIn := { baseT with name := str "a", uri := str "f" }

/-- World delivering one CIDR line for every path. -/
def w4 : World :=
  { emptyWorld with readFile := fun _ => .ok [str "1.2.3.4"] }

/-- Claim C5 scenario: a directory walk whose only file is filtered away
by the want list. -/
def t5 : TextIn := { baseT with inputDir := str "d", want := [str "ZZ"] }

/-- World whose walk meets one file with empty content. -/
def w5 : World :=
  { emptyWorld with
    dirFiles := [str "d/CN.txt"]
    readFile := fun _ => .ok [] }

/-- Claim C6 scenario: a converter with an unrecognised action. -/
def tOther : TextIn :=
  { baseT with action := .other [], name := str "a", ipOrCIDR := [str "x"] }

/-- Claim C8 scenario: a directory walk over two files resolving to the
same upper-cased code. -/
def t8 : TextIn := { baseT with inputDir := str "d" }

/-- World whose walk meets `cn.txt` and `CN.TXT`, both empty. -/
def w8 : World :=
  { emptyWorld with
    dirFiles := [str "d/cn.txt", str "d/CN.TXT"]
    readFile := fun _ => .ok [] }

/-- Claim C9 scenario: a plain directory configuration. -/
def cfg9 : TextConfig :=
  { name := [], uri := [], ipOrCIDR := [], inputDir := str "d", want := [],
    onlyIPType := .unset, removePrefixesInLine := [],
    removeSuffixesInLine := [] }

/-- The converter built from `cfg9`. -/
def t9 : TextIn := mkTextIn .add cfg9

/-- World whose walk meets a file whose name fails the pattern. -/
def w9 : World :=
  { emptyWorld with
    dirFiles := [str "bad name"]
    readFile := fun _ => .ok [] }

/-- Claim C10 scenario: `name`+`uri` whose entry the want list skips. -/
def t10 : TextIn :=
  { baseT with name := str "a", uri := str "f", want := [str "B"] }

/-- World delivering an empty file for every path. -/
def w10 : World := { emptyWorld with readFile := fun _ => .ok [] }

theorem findOcc_nil_of_ne {sep : Str} (h : sep ≠ []) : findOcc sep [] = none := by
  cases sep with
  | nil => exact absurd rfl h
  | cons a as => simp [findOcc, List.isPrefixOf]

theorem findOcc_prefix {sep l : Str} {i : Nat} (h : findOcc sep l = some i) :
    sep <+: l.drop i := by
  induction l generalizing i with
  | nil =>
    unfold findOcc at h
    split at h
    · next hp => cases h; simpa [List.isPrefixOf_iff_prefix] using hp
    · cases h
  | cons c rest ih =>
    unfold findOcc at h
    split at h
    · next hp => cases h; simpa [List.isPrefixOf_iff_prefix] using hp
    · next hp =>
      rcases Option.map_eq_some'.mp h with ⟨j, hj, rfl⟩
      simpa using ih hj

theorem findOcc_bound {sep l : Str} {i : Nat} (h : findOcc sep l = some i) :
    i + sep.length ≤ l.length := by
  induction l generalizing i with
  | nil =>
    unfold findOcc at h
    split at h
    · next hp =>
      cases h
      simpa using (List.isPrefixOf_iff_prefix.mp hp).length_le
    · cases h
  | cons c rest ih =>
    unfold findOcc at h
    split at h
    · next hp =>
      cases h
      simpa using (List.isPrefixOf_iff_prefix.mp hp).length_le
    · next hp =>
      rcases Option.map_eq_some'.mp h with ⟨j, hj, rfl⟩
      have := ih hj
      simp only [List.length_cons]
      omega

theorem occPos_le {sep l : Str} : occPos sep l ≤ l.length := by
  unfold occPos
  cases h : findOcc sep l with
  | none => simp
  | some i =>
    have := findOcc_bound h
    simp
    omega

theorem cutBefore_eq_take (l sep : Str) : cutBefore l sep = l.take (occPos sep l) := by
  unfold cutBefore occPos
  cases h : findOcc sep l with
  | none => simp
  | some i => simp

theorem prefix_take_iff {sep l : Str} {n : Nat} :
    sep <+: l.take n ↔ sep <+: l ∧ sep.length ≤ n := by
  constructor
  · intro h
    refine ⟨h.trans (List.take_prefix n l), ?_⟩
    have h1 := h.length_le
    have h2 := List.length_take n l
    omega
  · rintro ⟨h, hn⟩
    have h1 : sep = l.take sep.length := List.prefix_iff_eq_take.mp h
    have h2 : (l.take n).take sep.length = l.take sep.length := by
      rw [List.take_take]
      congr 1
      omega
    rw [h1, ← h2]
    exact List.take_prefix _ _

theorem findOcc_take_none {sep : Str} (hs : sep ≠ []) {l : Str}
    (h : findOcc sep l = none) (n : Nat) : findOcc sep (l.take n) = none := by
  induction l generalizing n with
  | nil => simp [findOcc_nil_of_ne hs]
  | cons c rest ih =>
    unfold findOcc at h
    split at h
    · cases h
    · next hp =>
      have hr : findOcc sep rest = none := by
        cases hr : findOcc sep rest with
        | none => rfl
        | some j => rw [hr] at h; cases h
      cases n with
      | zero => simp [findOcc_nil_of_ne hs]
      | succ m =>
        rw [List.take_succ_cons]
        unfold findOcc
        have hp' : ¬ sep <+: c :: rest.take m := by
          rw [← List.take_succ_cons]
          intro hcon
          exact hp (List.isPrefixOf_iff_prefix.mpr (prefix_take_iff.mp hcon).1)
        rw [if_neg (fun hb => hp' (List.isPrefixOf_iff_prefix.mp hb)), ih hr]
        rfl

theorem findOcc_take_some {sep : Str} (hs : sep ≠ []) {l : Str} {i : Nat}
    (h : findOcc sep l = some i) (n : Nat) :
    findOcc sep (l.take n) = if i + sep.length ≤ n then some i else none := by
  induction l generalizing i n with
  | nil => rw [findOcc_nil_of_ne hs] at h; cases h
  | cons c rest ih =>
    have hlen : 1 ≤ sep.length := by
      cases sep with
      | nil => exact absurd rfl hs
      | cons a as => simp
    unfold findOcc at h
    split at h
    · next hp =>
      cases h
      cases n with
      | zero =>
        rw [if_neg (by omega)]
        simp [findOcc_nil_of_ne hs]
      | succ m =>
        rw [List.take_succ_cons]
        unfold findOcc
        by_cases hfit : sep.length ≤ m + 1
        · have hp' : sep <+: c :: rest.take m := by
            rw [← List.take_succ_cons]
            exact prefix_take_iff.mpr ⟨List.isPrefixOf_iff_prefix.mp hp, hfit⟩
          rw [if_pos (List.isPrefixOf_iff_prefix.mpr hp'), if_pos (by omega)]
        · have hp' : ¬ sep <+: c :: rest.take m := by
            rw [← List.take_succ_cons]
            intro hcon
            exact hfit (prefix_take_iff.mp hcon).2
          rw [if_neg (fun hb => hp' (List.isPrefixOf_iff_prefix.mp hb)),
            if_neg (by omega)]
          cases hr : findOcc sep rest with
          | none => rw [findOcc_take_none hs hr]; rfl
          | some j => rw [ih hr, if_neg (by omega)]; rfl
    · next hp =>
      rcases Option.map_eq_some'.mp h with ⟨j, hj, rfl⟩
      cases n with
      | zero =>
        rw [if_neg (by omega)]
        simp [findOcc_nil_of_ne hs]
      | succ m =>
        rw [List.take_succ_cons]
        unfold findOcc
        have hp' : ¬ sep <+: c :: rest.take m := by
          rw [← List.take_succ_cons]
          intro hcon
          exact hp (List.isPrefixOf_iff_prefix.mpr (prefix_take_iff.mp hcon).1)
        rw [if_neg (fun hb => hp' (List.isPrefixOf_iff_prefix.mp hb)), ih hj]
        by_cases hfit : j + sep.length ≤ m
        · rw [if_pos hfit, if_pos (by omega)]
          rfl
        · rw [if_neg hfit, if_neg (by omega)]
          rfl

theorem occPos_take {sep l : Str} {n : Nat} (hs : sep ≠ [])
    (hstraddle : occPos sep l < n → occPos sep l + sep.length ≤ n) :
    occPos sep (l.take n) = min (occPos sep l) n := by
  unfold occPos at *
  cases h : findOcc sep l with
  | none =>
    rw [h] at hstraddle
    rw [findOcc_take_none hs h]
    simp [List.length_take]
    omega
  | some i =>
    rw [h] at hstraddle
    simp only [Option.getD_some] at hstraddle ⊢
    have hb := findOcc_bound h
    have hlen : 1 ≤ sep.length := by
      cases sep with
      | nil => exact absurd rfl hs
      | cons a as => simp
    rw [findOcc_take_some hs h]
    by_cases hin : i < n
    · rw [if_pos (hstraddle hin)]
      simp
      omega
    · rw [if_neg (by omega)]
      simp [List.length_take]
      omega

theorem findOcc_eq_of_lt {sep l : Str} (h : occPos sep l < l.length) :
    findOcc sep l = some (occPos sep l) := by
  unfold occPos at *
  cases hf : findOcc sep l with
  | none => rw [hf] at h; simp at h
  | some i => simp

theorem findOcc_getElem {sep l : Str} {i k : Nat} (h : findOcc sep l = some i)
    (hk : k < sep.length) : l[i + k]? = sep[k]? := by
  rcases findOcc_prefix h with ⟨t, ht⟩
  rw [← List.getElem?_drop l i k, ← ht, List.getElem?_append_left hk]

theorem occPos_no_straddle {sep l : Str} {m : Nat} (hlen : sep.length = 2)
    (hm : m ≤ l.length) (hchar : m < l.length → l[m]? ≠ sep[1]?) :
    occPos sep l < m → occPos sep l + sep.length ≤ m := by
  intro hlt
  by_contra hcon
  have hr : occPos sep l < l.length := by omega
  have hf := findOcc_eq_of_lt hr
  have hb := findOcc_bound hf
  have hm' : m = occPos sep l + 1 := by omega
  have hml : m < l.length := by omega
  have hg := findOcc_getElem hf (k := 1) (by omega)
  exact hchar hml (by rw [hm']; exact hg)

theorem stripComment_eq_earliest (ln : Str) :
    stripComment ln = earliestCutSpec ln := by
  unfold stripComment earliestCutSpec
  have hne2 : str "//" ≠ [] := by decide
  have hne3 : str "/*" ≠ [] := by decide
  have hp_le : occPos (str "#") ln ≤ ln.length := occPos_le
  have hq_le : occPos (str "//") ln ≤ ln.length := occPos_le
  have hchar_hash : occPos (str "#") ln < ln.length →
      ln[occPos (str "#") ln]? = some '#' := by
    intro h
    have hf := @findOcc_eq_of_lt (str "#") ln h
    have := findOcc_getElem hf (k := 0) (by decide)
    simpa using this
  have hchar_sl : occPos (str "//") ln < ln.length →
      ln[occPos (str "//") ln]? = some '/' := by
    intro h
    have hf := @findOcc_eq_of_lt (str "//") ln h
    have := findOcc_getElem hf (k := 0) (by decide)
    simpa using this
  rw [cutBefore_eq_take ln (str "#")]
  rw [cutBefore_eq_take (List.take (occPos (str "#") ln) ln) (str "//")]
  have h2 : occPos (str "//") (ln.take (occPos (str "#") ln)) =
      min (occPos (str "//") ln) (occPos (str "#") ln) := by
    apply occPos_take hne2
    apply occPos_no_straddle (by decide) hp_le
    intro hlt heq
    have := hchar_hash hlt
    rw [this] at heq
    exact absurd heq (by decide)
  rw [h2, List.take_take]
  have hmin1 : min (min (occPos (str "//") ln) (occPos (str "#") ln))
      (occPos (str "#") ln) =
      min (occPos (str "//") ln) (occPos (str "#") ln) := by omega
  rw [hmin1]
  rw [cutBefore_eq_take]
  have h3 : occPos (str "/*")
      (ln.take (min (occPos (str "//") ln) (occPos (str "#") ln))) =
      min (occPos (str "/*") ln)
        (min (occPos (str "//") ln) (occPos (str "#") ln)) := by
    apply occPos_take hne3
    apply occPos_no_straddle (by decide) (by omega)
    intro hlt heq
    rcases Nat.le_total (occPos (str "//") ln) (occPos (str "#") ln) with hle | hle
    · rw [min_eq_left hle] at hlt heq
      have := hchar_sl (by omega)
      rw [this] at heq
      exact absurd heq (by decide)
    · rw [min_eq_right hle] at hlt heq
      have := hchar_hash (by omega)
      rw [this] at heq
      exact absurd heq (by decide)
  rw [h3, List.take_take]
  congr 1
  omega

theorem charToNat_ofNat {n : Nat} (h : n.isValidChar) :
    (Char.ofNat n).toNat = n := by
  unfold Char.ofNat
  rw [dif_pos h]
  rfl

theorem lowerChar_idem (c : Char) : lowerChar (lowerChar c) = lowerChar c := by
  unfold lowerChar Char.toLower
  by_cases h : c.toNat ≥ 65 ∧ c.toNat ≤ 90
  · rw [if_pos h]
    have hv : (c.toNat + 32).isValidChar := Or.inl (by omega)
    have ht := charToNat_ofNat hv
    rw [if_neg (by rw [ht]; omega)]
  · rw [if_neg h, if_neg h]

theorem lowerStr_eq_self_iff {l : Str} :
    lowerStr l = l ↔ ∀ c ∈ l, lowerChar c = c := by
  unfold lowerStr
  constructor
  · intro h c hc
    induction l with
    | nil => cases hc
    | cons a as ih =>
      rw [List.map_cons, List.cons.injEq] at h
      rcases List.mem_cons.mp hc with rfl | hm
      · exact h.1
      · exact ih h.2 hm
  · intro h
    induction l with
    | nil => rfl
    | cons a as ih =>
      rw [List.map_cons, h a (List.mem_cons_self a as),
        ih (fun c hc => h c (List.mem_cons_of_mem a hc))]

theorem lowerStr_lower (l : Str) : lowerStr (lowerStr l) = lowerStr l := by
  apply lowerStr_eq_self_iff.mpr
  intro c hc
  rcases List.mem_map.mp hc with ⟨a, _, rfl⟩
  exact lowerChar_idem a

theorem trimSpace_subset (l : Str) : trimSpace l ⊆ l := by
  intro c hc
  unfold trimSpace at hc
  rw [List.mem_reverse] at hc
  have hc2 := (List.dropWhile_sublist _).subset hc
  rw [List.mem_reverse] at hc2
  exact (List.dropWhile_sublist _).subset hc2

theorem trimPfx_subset (p l : Str) : trimPfx p l ⊆ l := by
  unfold trimPfx
  split
  · exact List.drop_subset _ l
  · exact fun c hc => hc

theorem trimSfx_subset (s l : Str) : trimSfx s l ⊆ l := by
  unfold trimSfx
  split
  · exact List.take_subset _ l
  · exact fun c hc => hc

theorem stripPfxCI_eq {p l : Str} (hl : lowerStr l = l) :
    trimSpace (stripPfxCI p l) = trimSpace (trimPfx (lowerStr (trimSpace p)) l) := by
  unfold stripPfxCI trimPfx
  rw [hl]
  have hlen : (lowerStr (trimSpace p)).length = (trimSpace p).length :=
    List.length_map _ _
  rw [hlen]

theorem stripSfxCI_eq {s l : Str} (hl : lowerStr l = l) :
    trimSpace (stripSfxCI s l) = trimSpace (trimSfx (lowerStr (trimSpace s)) l) := by
  unfold stripSfxCI trimSfx
  rw [hl]
  have hlen : (lowerStr (trimSpace s)).length = (trimSpace s).length :=
    List.length_map _ _
  rw [hlen]

theorem lower_pres_pfx {q l : Str} (hl : lowerStr l = l) :
    lowerStr (trimSpace (trimPfx q l)) = trimSpace (trimPfx q l) := by
  apply lowerStr_eq_self_iff.mpr
  intro c hc
  have hcl : c ∈ l := trimPfx_subset q l (trimSpace_subset _ hc)
  exact lowerStr_eq_self_iff.mp hl c hcl

theorem lower_pres_sfx {q l : Str} (hl : lowerStr l = l) :
    lowerStr (trimSpace (trimSfx q l)) = trimSpace (trimSfx q l) := by
  apply lowerStr_eq_self_iff.mpr
  intro c hc
  have hcl : c ∈ l := trimSfx_subset q l (trimSpace_subset _ hc)
  exact lowerStr_eq_self_iff.mp hl c hcl

theorem foldPfx_eq (ps : List Str) : ∀ l : Str, lowerStr l = l →
    ps.foldl (fun l p => trimSpace (trimPfx (lowerStr (trimSpace p)) l)) l =
      ps.foldl (fun l p => trimSpace (stripPfxCI p l)) l ∧
    lowerStr (ps.foldl (fun l p => trimSpace (trimPfx (lowerStr (trimSpace p)) l)) l) =
      ps.foldl (fun l p => trimSpace (trimPfx (lowerStr (trimSpace p)) l)) l := by
  induction ps with
  | nil => exact fun l hl => ⟨rfl, hl⟩
  | cons p ps ih =>
    intro l hl
    rw [List.foldl_cons, List.foldl_cons]
    have hpres := lower_pres_pfx (q := lowerStr (trimSpace p)) hl
    refine ⟨?_, (ih _ hpres).2⟩
    rw [stripPfxCI_eq (p := p) hl]
    exact (ih _ hpres).1

theorem foldSfx_eq (ss : List Str) : ∀ l : Str, lowerStr l = l →
    ss.foldl (fun l s => trimSpace (trimSfx (lowerStr (trimSpace s)) l)) l =
      ss.foldl (fun l s => trimSpace (stripSfxCI s l)) l ∧
    lowerStr (ss.foldl (fun l s => trimSpace (trimSfx (lowerStr (trimSpace s)) l)) l) =
      ss.foldl (fun l s => trimSpace (trimSfx (lowerStr (trimSpace s)) l)) l := by
  induction ss with
  | nil => exact fun l hl => ⟨rfl, hl⟩
  | cons s ss ih =>
    intro l hl
    rw [List.foldl_cons, List.foldl_cons]
    have hpres := lower_pres_sfx (q := lowerStr (trimSpace s)) hl
    refine ⟨?_, (ih _ hpres).2⟩
    rw [stripSfxCI_eq (s := s) hl]
    exact (ih _ hpres).1

theorem procLine_eq_lineNormSpec (t : TextIn) (ln : Str) :
    procLine t ln = lineNormSpec t ln := by
  simp only [procLine, lineNormSpec]
  rw [stripComment_eq_earliest]
  by_cases h0 : trimSpace (earliestCutSpec ln) = []
  · rw [if_pos h0, if_pos h0]
  · rw [if_neg h0, if_neg h0]
    have hl0 : lowerStr (lowerStr (trimSpace (earliestCutSpec ln))) =
        lowerStr (trimSpace (earliestCutSpec ln)) := lowerStr_lower _
    have h1 := foldPfx_eq t.removePrefixesInLine _ hl0
    rw [← h1.1]
    have h2 := foldSfx_eq t.removeSuffixesInLine _ h1.2
    rw [← h2.1]

theorem lookupEntry_insertEntry (es : Entries) (k : Str) (v : Entry) :
    lookupEntry (insertEntry es k v) k = some v := by
  unfold insertEntry
  split
  · next hsome =>
    induction es with
    | nil => simp [lookupEntry] at hsome
    | cons a rest ih =>
      simp only [List.map_cons]
      by_cases hk : a.1 = k
      · rw [if_pos hk]
        simp [lookupEntry]
      · rw [if_neg hk]
        unfold lookupEntry
        rw [if_neg hk]
        apply ih
        unfold lookupEntry at hsome
        rw [if_neg hk] at hsome
        exact hsome
  · next hnone =>
    induction es with
    | nil => simp [lookupEntry]
    | cons a rest ih =>
      by_cases hk : a.1 = k
      · exfalso
        apply hnone
        unfold lookupEntry
        rw [if_pos hk]
        rfl
      · rw [List.cons_append]
        unfold lookupEntry
        rw [if_neg hk]
        apply ih
        intro hcon
        apply hnone
        unfold lookupEntry
        rw [if_neg hk]
        exact hcon

theorem lookupEntry_isSome_ne_nil {es : Entries} {k : Str}
    (h : (lookupEntry es k).isSome = true) : es ≠ [] := by
  intro he
  subst he
  simp [lookupEntry] at h

theorem appendIPOrCIDR_lookup {valid : Str → Bool} {cidrs : List Str}
    {name : Str} {es es' : Entries}
    (h : appendIPOrCIDR valid cidrs name es = .ok es') :
    (lookupEntry es' (upperStr name)).isSome = true := by
  unfold appendIPOrCIDR at h
  simp only [] at h
  split at h
  · cases h
  · cases h
    simp [lookupEntry_insertEntry]

/-- C2: construction (`newTextIn`) fails exactly when the parsed config
violates the source-mode rules (inputDir and name both empty; name set
with neither uri nor ipOrCIDR; inputDir set together with any of name,
uri, ipOrCIDR); every other parsed config yields the converter carrying
the given action and fields. -/
theorem textIn_c2 (action : LibAction) (cfg : TextConfig) :
    ((∃ e, newTextIn action cfg = .error e) ↔ configInvalid cfg) ∧
    (¬ configInvalid cfg → newTextIn action cfg = .ok (mkTextIn action cfg)) := by
  unfold newTextIn
  split_ifs with h1 h2 h3 h4 <;> simp_all [configInvalid]

/-- C2 witness: a valid name+uri configuration constructs successfully,
and an inputDir+name configuration is rejected. -/
theorem textIn_c2_witness :
    newTextIn .add cfgGood = .ok (mkTextIn .add cfgGood) ∧
    (∃ e, newTextIn .add { cfgGood with inputDir := str "d" } = .error e) :=
  ⟨(textIn_c2 .add cfgGood).2 (by decide),
   (textIn_c2 .add { cfgGood with inputDir := str "d" }).1.mpr (by decide)⟩

/-- C3: the three sequential cuts of `scanFile` keep exactly the text
before the earliest occurrence of any of the three comment markers. -/
theorem textIn_c3 (ln : Str) : stripComment ln = earliestCutSpec ln :=
  stripComment_eq_earliest ln

/-- C5: when entry generation succeeds with zero entries, `Input` fails
with the no-entry-generated error and applies nothing. -/
theorem textIn_c5 (valid : Str → Bool) {C : Type} (ops : ContainerOps C)
    (w : World) (t : TextIn) (c : C) (h : inputGen valid w t = .ok []) :
    textInput valid ops w t c = .error .noEntryGenerated := by
  unfold textInput
  rw [h]
  rfl

/-- C5 witness: a want list matching no walked file produces zero entries
and the explicit no-entry-generated failure. -/
theorem textIn_c5_witness :
    inputGen validTrue w5 t5 = .ok [] ∧
    textInput validTrue recOps w5 t5 [] = .error .noEntryGenerated :=
  ⟨rfl, textIn_c5 validTrue recOps w5 t5 [] rfl⟩

/-- C7: the configured `onlyIPType` is translated into the ignore option
(IPv4 only ignores IPv6, IPv6 only ignores IPv4, unset filters nothing)
that is passed to every container call of the invocation. -/
theorem textIn_c7 (valid : Str → Bool) {C : Type} (ops : ContainerOps C)
    (w : World) (t : TextIn) (c : C) :
    (textInput valid ops w t c =
      match inputGen valid w t with
      | .error e => .error e
      | .ok es =>
        if es.isEmpty then .error .noEntryGenerated
        else es.foldlM (fun c p =>
          match t.action with
          | .add => ops.add c p.2 (ignoreOf t.onlyIPType)
          | .remove => ops.remove c p.2 .caseRemovePfx (ignoreOf t.onlyIPType)
          | .other _ => .error .unknownAction) c) ∧
    ignoreOf .ipv4 = .ignoreIPv6 ∧ ignoreOf .ipv6 = .ignoreIPv4 ∧
    ignoreOf .unset = .noIgnore :=
  ⟨rfl, rfl, rfl, rfl⟩

/-- C6: entries are applied with `Container.Add` under the add action and
with `Container.Remove` in prefix-covering mode under the remove action;
any other action makes `Input` fail with the unknown-action error without
applying further entries. -/
theorem textIn_c6 (valid : Str → Bool) {C : Type} (ops : ContainerOps C)
    (w : World) (t : TextIn) (c : C) :
    (t.action = .add → textInput valid ops w t c =
      match inputGen valid w t with
      | .error e => .error e
      | .ok es =>
        if es.isEmpty then .error .noEntryGenerated
        else es.foldlM (fun c p => ops.add c p.2 (ignoreOf t.onlyIPType)) c) ∧
    (t.action = .remove → textInput valid ops w t c =
      match inputGen valid w t with
      | .error e => .error e
      | .ok es =>
        if es.isEmpty then .error .noEntryGenerated
        else es.foldlM
          (fun c p => ops.remove c p.2 .caseRemovePfx (ignoreOf t.onlyIPType)) c) ∧
    (∀ s es, t.action = .other s → inputGen valid w t = .ok es → es ≠ [] →
      textInput valid ops w t c = .error .unknownAction) := by
  refine ⟨?_, ?_, ?_⟩
  · intro ha
    unfold textInput
    cases hg : inputGen valid w t with
    | error e => rfl
    | ok es => simp only [ha]
  · intro ha
    unfold textInput
    cases hg : inputGen valid w t with
    | error e => rfl
    | ok es => simp only [ha]
  · intro s es hs hes hne
    unfold textInput
    rw [hes]
    cases es with
    | nil => exact absurd rfl hne
    | cons p rest =>
      simp only [hs, List.foldlM_cons, List.isEmpty_cons, Bool.false_eq_true,
        if_false]
      rfl

/-- C6 witness: an unrecognised action on a generated entry yields the
unknown-action error. -/
theorem textIn_c6_witness :
    textInput validTrue recOps emptyWorld tOther [] = .error .unknownAction :=
  (textIn_c6 validTrue recOps emptyWorld tOther []).2.2 []
    [(str "A", { name := str "A", prefixes := [str "x"] })] rfl rfl (by decide)

/-- C1 counterexample: in the `name`+`ipOrCIDR` source mode the want list
is not consulted, so an entry whose code is absent from the non-empty
want set is still applied to the container without error. -/
theorem textIn_c1_counterexample :
    t1c.want = [str "B"] ∧
    t1c.want.contains (str "A") = false ∧
    textInput validTrue recOps emptyWorld t1c [] =
      .ok [(str "A", .noIgnore)] :=
  ⟨rfl, rfl, rfl⟩

/-- C1 amended: for the directory-walk and `name`+`uri` sources
(`walkLocalFile` and `walkRemoteFile`), a candidate whose canonical code
is not in the non-empty want set is silently skipped, leaving the
entries unchanged; the literal `ipOrCIDR` append step applies no want
filtering. -/
theorem textIn_c1_amended (valid : Str → Bool) (w : World) (t : TextIn)
    (path name url : Str) (entries : Entries) :
    (∀ en, entryNameOf path name = .ok en → t.want ≠ [] →
      t.want.contains en = false →
      walkLocalFile valid w t path name entries = .ok entries) ∧
    (∀ body, w.httpGet url = .ok (200, body) → t.want ≠ [] →
      t.want.contains (upperStr name) = false →
      walkRemoteFile valid w t url name entries = .ok entries) := by
  constructor
  · intro en hen hw hc
    unfold walkLocalFile
    simp only [hen]
    rw [if_pos ⟨hw, hc⟩]
  · intro body hg hw hc
    unfold walkRemoteFile
    simp only [hg]
    rw [if_neg (by decide : ¬(200 ≠ 200)), if_pos ⟨hw, hc⟩]

/-- C1 witness: concrete skips for a local and a remote candidate whose
code `A` is not in the want set. -/
theorem textIn_c1_witness :
    walkLocalFile validTrue emptyWorld tW (str "p") (str "a") [] = .ok [] ∧
    walkRemoteFile validTrue w200 tW (str "u") (str "a") [] = .ok [] :=
  ⟨(textIn_c1_amended validTrue emptyWorld tW (str "p") (str "a") (str "u") []).1
      (str "A") rfl (by decide) rfl,
   (textIn_c1_amended validTrue w200 tW (str "p") (str "a") (str "u") []).2
      [] rfl (by decide) rfl⟩

/-- C4: after comment stripping and trimming, each non-empty line is
lower-cased, each configured line-prefix then line-suffix value (trimmed,
matched case-insensitively, in configured order, with re-trimming after
each strip) is removed if present, an empty result is skipped and a
non-empty one is handed to `AddPrefix`, whose parse failure becomes the
error returned by `Input`. -/
theorem textIn_c4 :
    (∀ (t : TextIn) (ln : Str), procLine t ln = lineNormSpec t ln) ∧
    (∀ (valid : Str → Bool) (t : TextIn) (lines : List Str) (e : Entry),
      scanFile valid t lines e =
        lines.foldlM (fun e ln =>
          match lineNormSpec t ln with
          | none => Except.ok e
          | some s => e.addPfx valid s) e) ∧
    (∀ (valid : Str → Bool) (w : World) (t : TextIn) (C : Type)
       (ops : ContainerOps C) (c : C) (lines : List Str) (er : Err),
      t.inputDir = [] → t.name ≠ [] → t.uri ≠ [] → trimSpace t.name ≠ [] →
      hasPfx (str "http://") (lowerStr t.uri) = false →
      hasPfx (str "https://") (lowerStr t.uri) = false →
      t.want = [] → w.readFile t.uri = .ok lines →
      scanFile valid t lines (newEntry (upperStr (trimSpace t.name))) = .error er →
      textInput valid ops w t c = .error er) := by
  refine ⟨procLine_eq_lineNormSpec, ?_, ?_⟩
  · intro valid t lines e
    unfold scanFile
    simp only [procLine_eq_lineNormSpec]
  · intro valid w t C ops c lines er hdir hname huri htrim hh1 hh2 hwant hread hscan
    have hwl : walkLocalFile valid w t t.uri t.name [] = .error er := by
      unfold walkLocalFile entryNameOf
      simp only []
      rw [if_pos htrim]
      simp only [hread, hscan]
      rw [if_neg (by rw [hwant]; exact fun hcon => hcon.1 rfl)]
      rw [if_neg (by simp [lookupEntry])]
    unfold textInput inputGen
    rw [if_neg (fun hcon => hcon hdir), if_pos ⟨hname, huri⟩]
    rw [hh1, hh2]
    simp only [Bool.or_self, Bool.false_eq_true, if_false, hwl]

/-- C4 witness: a line failing the parse aborts the run with that parse
error. -/
theorem textIn_c4_witness :
    textInput validNone recOps w4 t4 [] = .error (.parseErr (str "1.2.3.4")) :=
  textIn_c4.2.2 validNone w4 t4 _ recOps [] [str "1.2.3.4"]
    (.parseErr (str "1.2.3.4")) rfl (by decide) (by decide) (by decide)
    rfl rfl rfl rfl rfl

/-- C8: two walked files resolving to the same retained canonical code
make the walk, and with it `Input`, fail with the duplicated-list error
naming that code. -/
theorem textIn_c8 (valid : Str → Bool) (w : World) (t : TextIn)
    (p1 p2 n1 : Str) (ls1 : List Str) (e1 : Entry)
    (hf : w.dirFiles = [p1, p2])
    (h1 : entryNameOf p1 [] = .ok n1)
    (hw1 : t.want = [] ∨ t.want.contains n1 = true)
    (hr : w.readFile p1 = .ok ls1)
    (hs : scanFile valid t ls1 (newEntry n1) = .ok e1)
    (h2 : entryNameOf p2 [] = .ok n1) :
    walkDir valid w t [] = .error (.duplicatedList n1) ∧
    (t.inputDir ≠ [] → ∀ (C : Type) (ops : ContainerOps C) (c : C),
      textInput valid ops w t c = .error (.duplicatedList n1)) := by
  have hwcond : ¬ (t.want ≠ [] ∧ t.want.contains n1 = false) := by
    rcases hw1 with hw | hw
    · exact fun hcon => hcon.1 hw
    · exact fun hcon => by rw [hw] at hcon; cases hcon.2
  have hwd : walkDir valid w t [] = .error (.duplicatedList n1) := by
    unfold walkDir
    rw [hf]
    rw [List.foldlM_cons]
    have hstep1 : walkLocalFile valid w t p1 [] [] = .ok [(n1, e1)] := by
      unfold walkLocalFile
      simp only [h1, hr, hs]
      rw [if_neg hwcond, if_neg (by simp [lookupEntry])]
      rfl
    rw [hstep1]
    show List.foldlM (fun es p => walkLocalFile valid w t p [] es) [(n1, e1)] [p2] =
      Except.error (Err.duplicatedList n1)
    rw [List.foldlM_cons]
    have hstep2 : walkLocalFile valid w t p2 [] [(n1, e1)] =
        .error (.duplicatedList n1) := by
      unfold walkLocalFile
      simp only [h2]
      rw [if_neg hwcond, if_pos (by simp [lookupEntry])]
    rw [hstep2]
    rfl
  refine ⟨hwd, ?_⟩
  intro hd C ops c
  unfold textInput inputGen
  rw [if_pos hd, hwd]

/-- C8 witness: `cn.txt` and `CN.TXT` in one walk fail with the
duplicated-list error for code `CN`. -/
theorem textIn_c8_witness :
    textInput validTrue recOps w8 t8 [] = .error (.duplicatedList (str "CN")) :=
  (textIn_c8 validTrue w8 t8 (str "d/cn.txt") (str "d/CN.TXT") (str "CN") []
    (newEntry (str "CN")) rfl rfl (Or.inl rfl) rfl rfl rfl).2 (by decide)
    _ recOps []

/-- C9 counterexample: the filename-pattern check is not performed at
construction time: `newTextIn` accepts the directory configuration while
the failure for a non-matching filename only arises when `Input` walks
the file; moreover the hidden file `.foo.txt` does not keep its full
name but is truncated at its last dot. -/
theorem textIn_c9_counterexample :
    newTextIn .add cfg9 = .ok t9 ∧
    textInput validTrue recOps w9 t9 [] =
      .error (.badFilename (str "bad name")) ∧
    entryNameOf (str ".foo.txt") [] = .ok (str ".FOO") ∧
    str ".FOO" ≠ upperStr (str ".foo.txt") :=
  ⟨rfl, rfl, rfl, by decide⟩

/-- C9 amended: a walked file whose base name fails the pattern
`[a-zA-Z0-9_.-]+` makes the run (not construction) fail while reading
that source; a matching filename yields the entry name obtained by
truncating at the last dot when that dot is not leading (so a file whose
only dot is the leading one keeps its full name), upper-cased. -/
theorem textIn_c9_amended (valid : Str → Bool) (w : World) (t : TextIn)
    (path : Str) (entries : Entries) :
    (fileNameOk (baseName path) = false →
      walkLocalFile valid w t path [] entries =
        .error (.badFilename (baseName path))) ∧
    (fileNameOk (baseName path) = true →
      entryNameOf path [] = .ok (upperStr (stripExt (baseName path)))) := by
  constructor
  · intro hbad
    unfold walkLocalFile entryNameOf
    simp only []
    rw [if_neg (fun hcon => hcon rfl), if_pos (by simp [hbad])]
  · intro hok
    unfold entryNameOf
    simp only []
    rw [if_neg (fun hcon => hcon rfl), if_neg (by simp [hok])]

/-- C9 witness: a blank-bearing filename fails during the walk, and
`ab.txt` resolves to entry name `AB`. -/
theorem textIn_c9_witness :
    walkLocalFile validTrue emptyWorld baseT (str "x y") [] [] =
      .error (.badFilename (str "x y")) ∧
    entryNameOf (str "ab.txt") [] = .ok (str "AB") :=
  ⟨(textIn_c9_amended validTrue emptyWorld baseT (str "x y") []).1 (by decide),
   (textIn_c9_amended validTrue emptyWorld baseT (str "ab.txt") []).2 (by decide)⟩

/-- C10: with `name` and `uri` both set, a successful read always falls
through to the `ipOrCIDR` append step, which stores an entry keyed by
the upper-cased name even when `ipOrCIDR` is empty and even when the
want list skipped the uri entry, so successful generation always yields
the key and a non-empty entry set, and `Input` proceeds to the
application loop instead of the no-entry-generated error. -/
theorem textIn_c10 (valid : Str → Bool) (w : World) (t : TextIn)
    (h1 : t.inputDir = []) (h2 : t.name ≠ []) (h3 : t.uri ≠ []) :
    (inputGen valid w t =
      match
        (if hasPfx (str "http://") (lowerStr t.uri) ||
            hasPfx (str "https://") (lowerStr t.uri)
         then walkRemoteFile valid w t t.uri t.name []
         else walkLocalFile valid w t t.uri t.name []) with
      | .error e => .error e
      | .ok es => appendIPOrCIDR valid t.ipOrCIDR t.name es) ∧
    (∀ es : Entries, ∃ es' : Entries,
      appendIPOrCIDR valid [] t.name es = .ok es' ∧
      (lookupEntry es' (upperStr t.name)).isSome = true) ∧
    (∀ es' : Entries, inputGen valid w t = .ok es' →
      (lookupEntry es' (upperStr t.name)).isSome = true ∧ es' ≠ []) ∧
    (∀ (C : Type) (ops : ContainerOps C) (c : C) (es' : Entries),
      inputGen valid w t = .ok es' →
      textInput valid ops w t c = es'.foldlM (fun c p =>
        match t.action with
        | .add => ops.add c p.2 (ignoreOf t.onlyIPType)
        | .remove => ops.remove c p.2 .caseRemovePfx (ignoreOf t.onlyIPType)
        | .other _ => .error .unknownAction) c) := by
  have hmode : inputGen valid w t =
      match
        (if hasPfx (str "http://") (lowerStr t.uri) ||
            hasPfx (str "https://") (lowerStr t.uri)
         then walkRemoteFile valid w t t.uri t.name []
         else walkLocalFile valid w t t.uri t.name []) with
      | .error e => .error e
      | .ok es => appendIPOrCIDR valid t.ipOrCIDR t.name es := by
    unfold inputGen
    rw [if_neg (fun hcon => hcon h1), if_pos ⟨h2, h3⟩]
  have hkey : ∀ es' : Entries, inputGen valid w t = .ok es' →
      (lookupEntry es' (upperStr t.name)).isSome = true ∧ es' ≠ [] := by
    intro es' hgen
    rw [hmode] at hgen
    split at hgen
    · cases hgen
    · have hl := appendIPOrCIDR_lookup hgen
      exact ⟨hl, lookupEntry_isSome_ne_nil hl⟩
  refine ⟨hmode, ?_, hkey, ?_⟩
  · intro es
    refine ⟨insertEntry es (upperStr t.name)
      ((lookupEntry es (upperStr t.name)).getD (newEntry (upperStr t.name))),
      rfl, ?_⟩
    simp [lookupEntry_insertEntry]
  · intro C ops c es' hgen
    unfold textInput
    simp only [hgen]
    rw [if_neg (by simp [List.isEmpty_iff, (hkey es' hgen).2])]

/-- C10 witness: a want-skipped uri entry with empty `ipOrCIDR` still
yields the entry keyed by the upper-cased name, so the entry set is
non-empty. -/
theorem textIn_c10_witness :
    (lookupEntry [(str "A", newEntry (str "A"))] (str "A")).isSome = true ∧
    ([(str "A", newEntry (str "A"))] : Entries) ≠ [] :=
  (textIn_c10 validTrue w10 t10 rfl (by decide) (by decide)).2.2.1
    [(str "A", newEntry (str "A"))] rfl
